import Mathlib

/-!
A shallow embedding of the transaction and query engine of the `column`
in-memory store (transaction.go), together with proofs about it.

Modelling conventions:
* bitmaps (the kelindar/bitmap dependency) are modelled as `Finset ℕ`;
  Set/Contains/Or/AndNot/Clear/Count/Filter become the corresponding
  finite-set operations;
* the dynamically typed value channel (Go `interface` values) is modelled
  by the closed sum `DynValue`;
* fallible operations return `Option` or `Except`; a Go runtime panic is
  modelled as `none`;
* the per-transaction `columns` cache (`columnCache`) is a transparent
  memoization of registry lookups and is modelled as the direct lookup;
* concrete column storage and the `Collection` type live outside the
  given sources; they are modelled from the spec where marked.
-/

/-- Runtime-typed value stored in a column (Go `interface` value). -/
inductive DynValue where
  | vstr : String → DynValue
  | vint : Int → DynValue
  deriving DecidableEq, Repr

/-- UpdateKind represents a type of an update operation (transaction.go). -/
inductive UpdateKind where
  | UpdatePut
  | UpdateAdd
  deriving DecidableEq, Repr

/-- Update represents an update operation (transaction.go). -/
structure Update where
  Kind : UpdateKind
  Index : ℕ
  Value : DynValue
  deriving DecidableEq, Repr

/-- Update queue: a queue per column containing pending updates (transaction.go). -/
structure updateQueue where
  name : String
  update : List Update
  deriving DecidableEq, Repr

/-- Modelled from the spec: a column (concrete column implementations are not
among the given sources). It carries its presence bitmap `exist` and the
underlying dense storage `data` (garbage outside `exist`). -/
structure Column where
  exist : Finset ℕ
  data : ℕ → DynValue

/-- Modelled from the spec: value read at an index returns the stored value
together with presence. -/
def Column.Value (c : Column) (idx : ℕ) : Option DynValue :=
  if idx ∈ c.exist then some (c.data idx) else none

/-- Modelled from the spec: presence test. -/
def Column.Contains (c : Column) (idx : ℕ) : Bool :=
  decide (idx ∈ c.exist)

/-- Modelled from the spec: grow to accommodate an index. Capacity has no
semantic content in the set-level model. -/
def Column.Grow (c : Column) (_maxIdx : ℕ) : Column := c

/-- Modelled from the spec: apply one update record. `Put` stores the value;
`Add` increments a stored numeric value by the amount. -/
def Column.applyUpdate (c : Column) (u : Update) : Column :=
  match u.Kind with
  | .UpdatePut =>
      { exist := insert u.Index c.exist,
        data := fun i => if i = u.Index then u.Value else c.data i }
  | .UpdateAdd =>
      { exist := insert u.Index c.exist,
        data := fun i =>
          if i = u.Index then
            match c.Value u.Index, u.Value with
            | some (.vint a), .vint b => .vint (a + b)
            | _, v => v
          else c.data i }

/-- Modelled from the spec: bulk apply of an ordered update list. -/
def Column.UpdateMany (c : Column) (us : List Update) : Column :=
  us.foldl Column.applyUpdate c

/-- Modelled from the spec: bulk delete given a bitmap of indices. -/
def Column.DeleteMany (c : Column) (bm : Finset ℕ) : Column :=
  { exist := c.exist \ bm, data := c.data }

/-- Lookup of a registry entry by name (the registry maps a column name to
the base column plus any computed columns registered under that name). -/
def lookupCols (cols : List (String × List Column)) (name : String) : List Column :=
  match cols.find? (fun p => p.1 == name) with
  | some p => p.2
  | none => []

/-- Modelled from the spec: the collection owns the column registry and the
global fill bitmap of live rows (collection.go is not among the given
sources). -/
structure Collection where
  cols : List (String × List Column)
  fill : Finset ℕ

/-- Modelled from the spec: returns the base column together with any
computed columns registered under the same name. -/
def Collection.LoadWithIndex (c : Collection) (name : String) : List Column :=
  lookupCols c.cols name

/-- Modelled from the spec: look up a single column. -/
def Collection.Load (c : Collection) (name : String) : Option Column :=
  (c.LoadWithIndex name).head?

/-- Smallest natural number outside the given set (a pigeonhole bound keeps
the search finite). -/
def freshIdx (s : Finset ℕ) : ℕ :=
  (((List.range (s.card + 1)).find? (fun i => decide (i ∉ s))).getD 0)

/-- Modelled from the spec: `next()` returns an index that is not currently
in `fill` and not reserved by the in-flight inserts. -/
def Collection.next (c : Collection) (reserved : Finset ℕ) : ℕ :=
  freshIdx (c.fill ∪ reserved)

/-- Modelled from the spec: the reserved TTL column name (collection.go is
not among the given sources; the spec calls the column `expire`). -/
def expireColumn : String := "expire"

/-- Txn represents a transaction which supports filtering and projection
(transaction.go). The `columns` cache is omitted: it is a transparent
memoization of owner registry lookups. -/
structure Txn where
  owner : Collection
  index : Finset ℕ
  deletes : Finset ℕ
  inserts : Finset ℕ
  updates : List updateQueue

/-- aquireTxn acquires a transaction for a collection (transaction.go); the
pooled transaction is assumed clean, as the pool contract requires. The
working index is a clone of the owner's fill bitmap. -/
def aquireTxn (owner : Collection) : Txn :=
  { owner := owner, index := owner.fill, deletes := ∅, inserts := ∅, updates := [] }

/-- columnAt loads the column for the transaction (transaction.go); the
per-transaction cache is modelled as the direct registry lookup. -/
def Txn.columnAt (txn : Txn) (columnName : String) : Option Column :=
  txn.owner.Load columnName

/-- One step of `With`: intersect the named column's presence bitmap into
the working index, or clear the index when the column is missing. -/
def withStep (txn : Txn) (name : String) : Txn :=
  match txn.columnAt name with
  | some idx => { txn with index := txn.index ∩ idx.exist }
  | none => { txn with index := ∅ }

/-- With applies a logical AND operation to the current query and the
specified columns (transaction.go); the primary column and the extras are
processed by the same step, left to right. -/
def Txn.With (txn : Txn) (column : String) (extra : List String) : Txn :=
  (column :: extra).foldl withStep txn

/-- One step of `Without`: subtract the named column's presence bitmap from
the working index; a missing column is skipped. -/
def withoutStep (txn : Txn) (name : String) : Txn :=
  match txn.columnAt name with
  | some idx => { txn with index := txn.index \ idx.exist }
  | none => txn

/-- Without applies a logical AND NOT operation to the current query
(transaction.go). -/
def Txn.Without (txn : Txn) (column : String) (extra : List String) : Txn :=
  (column :: extra).foldl withoutStep txn

/-- One step of `Union`: add the named column's presence bitmap to the
working index; a missing column is skipped. -/
def unionStep (txn : Txn) (name : String) : Txn :=
  match txn.columnAt name with
  | some idx => { txn with index := txn.index ∪ idx.exist }
  | none => txn

/-- Union computes a union between the current query and the specified
columns (transaction.go). -/
def Txn.Union (txn : Txn) (column : String) (extra : List String) : Txn :=
  (column :: extra).foldl unionStep txn

/-- The body of the filter closure of `WithValue`: a row matches when a
value is present and satisfies the predicate. -/
def valueMatch (p : Column) (predicate : DynValue → Bool) (x : ℕ) : Bool :=
  match p.Value x with
  | some v => predicate v
  | none => false

/-- WithValue applies a filter predicate over values for a specific column
(transaction.go); a missing column is a no-op. -/
def Txn.WithValue (txn : Txn) (column : String) (predicate : DynValue → Bool) : Txn :=
  match txn.columnAt column with
  | some p => { txn with index := txn.index.filter (fun x => valueMatch p predicate x = true) }
  | none => txn

/-- Go type assertion `v.(string)`: succeeds on strings, panics otherwise;
the panic is modelled as `none`. -/
def stringAssert : DynValue → Option String
  | .vstr s => some s
  | _ => none

/-- The body of the filter closure built by `WithString`: the predicate is
applied to `v.(string)`, which panics (`none`) on a present non-string. -/
def stringMatch (p : Column) (predicate : String → Bool) (x : ℕ) : Option Bool :=
  match p.Value x with
  | none => some false
  | some v => (stringAssert v).map predicate

/-- WithString filters the values with a string predicate (transaction.go);
it delegates to WithValue with the closure asserting `v.(string)`. The
whole call panics (`none`) when a visited row holds a present non-string
value. -/
def Txn.WithString (txn : Txn) (column : String) (predicate : String → Bool) : Option Txn :=
  match txn.columnAt column with
  | some p =>
      if ∀ x ∈ txn.index, (stringMatch p predicate x).isSome = true then
        some { txn with index := txn.index.filter (fun x => stringMatch p predicate x = some true) }
      else none
  | none => some txn

/-- Count returns the number of objects matching the query
(transaction.go). -/
def Txn.Count (txn : Txn) : ℕ :=
  txn.index.card

/-- DeleteAt attempts to delete an item at the specified index
(transaction.go): if the item is in the working index it is marked as
deleted and true is returned, otherwise false. -/
def Txn.DeleteAt (txn : Txn) (index : ℕ) : Txn × Bool :=
  if index ∈ txn.index then
    ({ txn with deletes := insert index txn.deletes }, true)
  else
    (txn, false)

/-- DeleteIf marks for deletion every selected row on which the function
returns true (transaction.go); the callback is abstracted as a predicate
on the row index. -/
def Txn.DeleteIf (txn : Txn) (fn : ℕ → Bool) : Txn :=
  { txn with deletes := txn.deletes ∪ txn.index.filter (fun x => fn x = true) }

/-- DeleteAll marks all of the currently selected items for deletion
(transaction.go). -/
def Txn.DeleteAll (txn : Txn) : Txn :=
  { txn with deletes := txn.deletes ∪ txn.index }

/-- Cursor.UpdateAt (transaction.go): find the update queue registered for
the column and append a Put record, or create a new queue holding it. -/
def enqueueAt (qs : List updateQueue) (column : String) (u : Update) : List updateQueue :=
  match qs with
  | [] => [⟨column, [u]⟩]
  | q :: rest =>
      if q.name == column then ⟨q.name, q.update ++ [u]⟩ :: rest
      else q :: enqueueAt rest column u

/-- The transaction-level effect of `Cursor.UpdateAt` at row `idx`
(transaction.go). -/
def Txn.UpdateAt (txn : Txn) (idx : ℕ) (column : String) (value : DynValue) : Txn :=
  { txn with updates := enqueueAt txn.updates column ⟨.UpdatePut, idx, value⟩ }

/-- The generate-the-updates loop of `insert` (transaction.go): for each
pair of the object whose key names an existing column, enqueue a Put at
the reserved slot; unknown columns are silently dropped. -/
def insertLoop (j : ℕ) (object : List (String × DynValue)) (t : Txn) : Txn :=
  object.foldl
    (fun t kv => if (t.columnAt kv.1).isSome then t.UpdateAt j kv.1 kv.2 else t) t

/-- insert inserts an object at a new index and returns the index
(transaction.go): reserve a fresh slot, set its bit in `inserts`, enqueue a
Put per known column of the object, and enqueue the TTL value when
`expireAt` is nonzero. -/
def Txn.insert (txn : Txn) (object : List (String × DynValue)) (expireAt : Int) : Txn × ℕ :=
  let j := txn.owner.next txn.inserts
  let t2 := insertLoop j object { txn with inserts := Insert.insert j txn.inserts }
  let t3 := if expireAt ≠ 0 then t2.UpdateAt j expireColumn (.vint expireAt) else t2
  (t3, j)

/-- cursorFor returns a cursor for a specified column (transaction.go): an
error when the column does not exist, otherwise the index of the update
queue for the column, allocating the queue when absent. -/
def Txn.cursorFor (txn : Txn) (columnName : String) : Except String (Txn × ℕ) :=
  match txn.columnAt columnName with
  | none => .error ("column: specified column " ++ columnName ++ " does not exist")
  | some _ =>
      match txn.updates.findIdx? (fun c => c.name == columnName) with
      | some i => .ok (txn, i)
      | none => .ok ({ txn with updates := txn.updates ++ [⟨columnName, []⟩] }, txn.updates.length)

/-- The ascending iteration of `bitmap.Range` with early stop: returns the
list of indices on which the callback is invoked. -/
def rangeVisit (l : List ℕ) (fn : ℕ → Bool) : List ℕ :=
  match l with
  | [] => []
  | x :: xs => if fn x then x :: rangeVisit xs fn else [x]

/-- Range selects and iterates over results for a specific column
(transaction.go). The result pairs the outcome with the list of row
indices the callback is invoked on (empty on error: the error returns
before the iteration). -/
def Txn.Range (txn : Txn) (column : String) (fn : ℕ → Bool) : Except String Txn × List ℕ :=
  match txn.cursorFor column with
  | .error err => (.error err, [])
  | .ok (t, _) => (.ok t, rangeVisit (t.index.sort (· ≤ ·)) fn)

/-- deletePending removes the entries marked for deletion (transaction.go):
fan the batch delete out to every registered column, subtract `deletes`
from the owner's fill under the lock, then clear `deletes`. -/
def Txn.deletePending (txn : Txn) : Txn :=
  if txn.deletes = ∅ then txn
  else
    { txn with
      owner :=
        { cols := txn.owner.cols.map (fun p => (p.1, p.2.map (fun c => c.DeleteMany txn.deletes))),
          fill := txn.owner.fill \ txn.deletes },
      deletes := ∅ }

/-- Application of one non-empty update queue to the registry entry of its
name: each column under the name is grown to the maximal in-flight insert
and receives the batch (transaction.go, updatePending loop body). -/
def applyQueueTo (cols : List (String × List Column)) (u : updateQueue) (ins : Finset ℕ) :
    List (String × List Column) :=
  cols.map (fun p =>
    if p.1 == u.name then
      (p.1, p.2.map (fun v =>
        (if h : ins.Nonempty then v.Grow (ins.max' h) else v).UpdateMany u.update))
    else p)

/-- updatePending updates the pending entries that were modified during the
query (transaction.go): empty queues are skipped, queues whose name has no
registered column are skipped without being reset, applied queues are
reset. Registry names and entry emptiness never change during the loop, so
the reset decision is taken against the entry registry. -/
def Txn.updatePending (txn : Txn) : Txn :=
  { txn with
    owner :=
      { txn.owner with
        cols := txn.updates.foldl
          (fun cs u =>
            if u.update.isEmpty then cs
            else if (lookupCols cs u.name).isEmpty then cs
            else applyQueueTo cs u txn.inserts)
          txn.owner.cols },
    updates := txn.updates.map (fun u =>
      if u.update.isEmpty then u
      else if (txn.owner.LoadWithIndex u.name).isEmpty then u
      else ⟨u.name, []⟩) }

/-- insertPending makes the pending inserts visible by setting the fill
bits atomically in the collection (transaction.go). -/
def Txn.insertPending (txn : Txn) : Txn :=
  if txn.inserts = ∅ then txn
  else
    { txn with
      owner := { txn.owner with fill := txn.owner.fill ∪ txn.inserts },
      inserts := ∅ }

/-- Commit commits the transaction by applying all pending updates and
deletes to the collection (transaction.go). -/
def Txn.Commit (txn : Txn) : Txn :=
  txn.deletePending.updatePending.insertPending

/-- Rollback empties the pending update and delete queues without applying
them (transaction.go); queue bodies are truncated with names retained. -/
def Txn.Rollback (txn : Txn) : Txn :=
  { txn with
    deletes := ∅,
    inserts := ∅,
    updates := txn.updates.map (fun q => ⟨q.name, []⟩) }

/-- The pending records of the queue registered for a name. -/
def queueBodyL (qs : List updateQueue) (name : String) : List Update :=
  match qs.find? (fun q => q.name == name) with
  | some q => q.update
  | none => []

/-- The pending records of the transaction's queue for a column name. -/
def Txn.queueBody (txn : Txn) (name : String) : List Update :=
  queueBodyL txn.updates name

/-- The presence bitmap a name contributes to a filter: the existence
bitmap of the resolved column, empty when the name resolves to nothing. -/
def Txn.existAt (txn : Txn) (name : String) : Finset ℕ :=
  match txn.columnAt name with
  | some col => col.exist
  | none => ∅

/-- The soft string predicate of the spec: a present non-string value
simply fails the filter instead of faulting. -/
def softString (predicate : String → Bool) : DynValue → Bool
  | .vstr s => predicate s
  | _ => false

/-- A row is string-safe for a column when its present value there, if
any, is a string (so the `WithString` closure cannot panic on it). -/
def Txn.rowStringSafe (txn : Txn) (c : String) (x : ℕ) : Bool :=
  match txn.columnAt c with
  | some p =>
      match p.Value x with
      | some v => (stringAssert v).isSome
      | none => true
  | none => true

/-- The transaction operations available between acquire and commit, with
callbacks abstracted as boolean predicates. -/
inductive Op where
  | opWith (column : String) (extra : List String)
  | opWithout (column : String) (extra : List String)
  | opUnion (column : String) (extra : List String)
  | opWithValue (column : String) (predicate : DynValue → Bool)
  | opDeleteAt (i : ℕ)
  | opDeleteIf (fn : ℕ → Bool)
  | opDeleteAll
  | opInsert (object : List (String × DynValue)) (expireAt : Int)
  | opUpdateAt (i : ℕ) (column : String) (value : DynValue)

/-- The state effect of one transaction operation. -/
def Op.apply (o : Op) (t : Txn) : Txn :=
  match o with
  | opWith c e => t.With c e
  | opWithout c e => t.Without c e
  | opUnion c e => t.Union c e
  | opWithValue c p => t.WithValue c p
  | opDeleteAt i => (t.DeleteAt i).1
  | opDeleteIf f => t.DeleteIf f
  | opDeleteAll => t.DeleteAll
  | opInsert o e => (t.insert o e).1
  | opUpdateAt i c v => t.UpdateAt i c v

/-- Sequential application of a list of transaction operations. -/
def applyOps (ops : List Op) (t : Txn) : Txn :=
  ops.foldl (fun t o => o.apply t) t

/-- The delete operations. -/
def Op.isDelete : Op → Bool
  | opDeleteAt _ => true
  | opDeleteIf _ => true
  | opDeleteAll => true
  | _ => false

/-- The filter operations that can shrink the working index. -/
def Op.isFilter : Op → Bool
  | opWith _ _ => true
  | opWithout _ _ => true
  | opWithValue _ _ => true
  | _ => false

/-- The staged-delete invariant of the spec: every staged delete is in the
working index or among the in-flight inserts. -/
def txnInv (t : Txn) : Prop :=
  t.deletes ⊆ t.index ∪ t.inserts

instance txnInvDecidable (t : Txn) : Decidable (txnInv t) :=
  inferInstanceAs (Decidable (t.deletes ⊆ t.index ∪ t.inserts))

/-- Well-formed collection: every registered column's presence bits lie
inside the fill bitmap (rows only receive column values once committed). -/
def Collection.wf (c : Collection) : Prop :=
  ∀ p ∈ c.cols, ∀ col ∈ p.2, col.exist ⊆ c.fill

/-- The staged-state invariant of a live transaction: the working index
and the staged deletes lie inside the owner's fill, while the in-flight
inserts are disjoint from it. -/
def stagedOK (t : Txn) : Prop :=
  t.index ⊆ t.owner.fill ∧ t.deletes ⊆ t.owner.fill ∧ ∀ x ∈ t.inserts, x ∉ t.owner.fill

/-- A column whose only present row is 5. -/
def colA : Column :=
  { exist := {5}, data := fun _ => .vint 0 }

/-- A collection with the single column `a` and one live row 5. -/
def exColl : Collection :=
  { cols := [("a", [colA])], fill := {5} }

/-- A column holding the non-string value 7 at its only present row 0. -/
def colNum : Column :=
  { exist := {0}, data := fun _ => .vint 7 }

/-- A collection whose column `s` holds a present non-string value at the
live row 0. -/
def exCollNum : Collection :=
  { cols := [("s", [colNum])], fill := {0} }

/-- A column holding the string value hi at its only present row 0. -/
def colStr : Column :=
  { exist := {0}, data := fun _ => .vstr "hi" }

/-- A collection whose column `s` holds a string at the live row 0. -/
def exCollStr : Collection :=
  { cols := [("s", [colStr])], fill := {0} }

/-- A concrete pending Put record at row 0. -/
def ghostUpd : Update :=
  ⟨.UpdatePut, 0, .vint 1⟩

/-- A transaction whose queue names a column that is not registered in the
owner. -/
def exTxnGhost : Txn :=
  { owner := exColl, index := ∅, deletes := ∅, inserts := ∅,
    updates := [⟨"ghost", [ghostUpd]⟩] }

/-- A transaction carrying one queue for the registered column `a` and one
for the unregistered name `ghost`. -/
def exTxnMixed : Txn :=
  { owner := exColl, index := ∅, deletes := ∅, inserts := ∅,
    updates := [⟨"a", [ghostUpd]⟩, ⟨"ghost", [ghostUpd]⟩] }

/-- A transaction with a staged delete of row 5 and an in-flight insert of
row 7. -/
def exTxnStaged : Txn :=
  { owner := exColl, index := {5}, deletes := {5}, inserts := {7}, updates := [] }

/-! ### Frame lemmas for the filter steps -/

theorem columnAt_of_owner_eq {t s : Txn} (h : t.owner = s.owner) :
    t.columnAt = s.columnAt := by
  funext n
  unfold Txn.columnAt
  rw [h]

theorem existAt_of_owner_eq {t s : Txn} (h : t.owner = s.owner) :
    t.existAt = s.existAt := by
  funext n
  unfold Txn.existAt
  rw [columnAt_of_owner_eq h]

theorem withStep_owner (t : Txn) (n : String) : (withStep t n).owner = t.owner := by
  unfold withStep; split <;> rfl

theorem withStep_deletes (t : Txn) (n : String) : (withStep t n).deletes = t.deletes := by
  unfold withStep; split <;> rfl

theorem withStep_inserts (t : Txn) (n : String) : (withStep t n).inserts = t.inserts := by
  unfold withStep; split <;> rfl

theorem withStep_updates (t : Txn) (n : String) : (withStep t n).updates = t.updates := by
  unfold withStep; split <;> rfl

theorem withStep_index (t : Txn) (n : String) :
    (withStep t n).index = t.index ∩ t.existAt n := by
  unfold withStep Txn.existAt
  cases h : t.columnAt n <;> simp [h]

theorem withoutStep_owner (t : Txn) (n : String) : (withoutStep t n).owner = t.owner := by
  unfold withoutStep; split <;> rfl

theorem withoutStep_deletes (t : Txn) (n : String) : (withoutStep t n).deletes = t.deletes := by
  unfold withoutStep; split <;> rfl

theorem withoutStep_inserts (t : Txn) (n : String) : (withoutStep t n).inserts = t.inserts := by
  unfold withoutStep; split <;> rfl

theorem withoutStep_index (t : Txn) (n : String) :
    (withoutStep t n).index = t.index \ t.existAt n := by
  unfold withoutStep Txn.existAt
  cases h : t.columnAt n <;> simp [h]

theorem unionStep_owner (t : Txn) (n : String) : (unionStep t n).owner = t.owner := by
  unfold unionStep; split <;> rfl

theorem unionStep_deletes (t : Txn) (n : String) : (unionStep t n).deletes = t.deletes := by
  unfold unionStep; split <;> rfl

theorem unionStep_inserts (t : Txn) (n : String) : (unionStep t n).inserts = t.inserts := by
  unfold unionStep; split <;> rfl

theorem unionStep_index (t : Txn) (n : String) :
    (unionStep t n).index = t.index ∪ t.existAt n := by
  unfold unionStep Txn.existAt
  cases h : t.columnAt n <;> simp [h]

theorem foldl_withStep_owner (l : List String) (t : Txn) :
    (l.foldl withStep t).owner = t.owner := by
  induction l generalizing t with
  | nil => rfl
  | cons n l ih => simp only [List.foldl_cons]; rw [ih, withStep_owner]

theorem foldl_withStep_deletes (l : List String) (t : Txn) :
    (l.foldl withStep t).deletes = t.deletes := by
  induction l generalizing t with
  | nil => rfl
  | cons n l ih => simp only [List.foldl_cons]; rw [ih, withStep_deletes]

theorem foldl_withStep_inserts (l : List String) (t : Txn) :
    (l.foldl withStep t).inserts = t.inserts := by
  induction l generalizing t with
  | nil => rfl
  | cons n l ih => simp only [List.foldl_cons]; rw [ih, withStep_inserts]

theorem foldl_withStep_updates (l : List String) (t : Txn) :
    (l.foldl withStep t).updates = t.updates := by
  induction l generalizing t with
  | nil => rfl
  | cons n l ih => simp only [List.foldl_cons]; rw [ih, withStep_updates]

theorem foldl_withStep_index (l : List String) (t : Txn) :
    (l.foldl withStep t).index = l.foldl (fun s n => s ∩ t.existAt n) t.index := by
  induction l generalizing t with
  | nil => rfl
  | cons n l ih =>
      simp only [List.foldl_cons]
      rw [ih (withStep t n), existAt_of_owner_eq (withStep_owner t n), withStep_index]

theorem foldl_withoutStep_owner (l : List String) (t : Txn) :
    (l.foldl withoutStep t).owner = t.owner := by
  induction l generalizing t with
  | nil => rfl
  | cons n l ih => simp only [List.foldl_cons]; rw [ih, withoutStep_owner]

theorem foldl_withoutStep_deletes (l : List String) (t : Txn) :
    (l.foldl withoutStep t).deletes = t.deletes := by
  induction l generalizing t with
  | nil => rfl
  | cons n l ih => simp only [List.foldl_cons]; rw [ih, withoutStep_deletes]

theorem foldl_withoutStep_inserts (l : List String) (t : Txn) :
    (l.foldl withoutStep t).inserts = t.inserts := by
  induction l generalizing t with
  | nil => rfl
  | cons n l ih => simp only [List.foldl_cons]; rw [ih, withoutStep_inserts]

theorem foldl_unionStep_owner (l : List String) (t : Txn) :
    (l.foldl unionStep t).owner = t.owner := by
  induction l generalizing t with
  | nil => rfl
  | cons n l ih => simp only [List.foldl_cons]; rw [ih, unionStep_owner]

theorem foldl_unionStep_deletes (l : List String) (t : Txn) :
    (l.foldl unionStep t).deletes = t.deletes := by
  induction l generalizing t with
  | nil => rfl
  | cons n l ih => simp only [List.foldl_cons]; rw [ih, unionStep_deletes]

theorem foldl_unionStep_inserts (l : List String) (t : Txn) :
    (l.foldl unionStep t).inserts = t.inserts := by
  induction l generalizing t with
  | nil => rfl
  | cons n l ih => simp only [List.foldl_cons]; rw [ih, unionStep_inserts]

theorem foldl_unionStep_index_mono (l : List String) (t : Txn) :
    t.index ⊆ (l.foldl unionStep t).index := by
  induction l generalizing t with
  | nil => exact fun _ h => h
  | cons n l ih =>
      simp only [List.foldl_cons]
      intro x hx
      apply ih (unionStep t n)
      rw [unionStep_index]
      exact Finset.mem_union_left _ hx

theorem WithValue_owner (t : Txn) (c : String) (p : DynValue → Bool) :
    (t.WithValue c p).owner = t.owner := by
  unfold Txn.WithValue; split <;> rfl

theorem WithValue_deletes (t : Txn) (c : String) (p : DynValue → Bool) :
    (t.WithValue c p).deletes = t.deletes := by
  unfold Txn.WithValue; split <;> rfl

theorem WithValue_inserts (t : Txn) (c : String) (p : DynValue → Bool) :
    (t.WithValue c p).inserts = t.inserts := by
  unfold Txn.WithValue; split <;> rfl

/-! ### Frame lemmas for the mutation queueing operations -/

theorem UpdateAt_owner (t : Txn) (i : ℕ) (c : String) (v : DynValue) :
    (t.UpdateAt i c v).owner = t.owner := rfl

theorem UpdateAt_index (t : Txn) (i : ℕ) (c : String) (v : DynValue) :
    (t.UpdateAt i c v).index = t.index := rfl

theorem UpdateAt_deletes (t : Txn) (i : ℕ) (c : String) (v : DynValue) :
    (t.UpdateAt i c v).deletes = t.deletes := rfl

theorem UpdateAt_inserts (t : Txn) (i : ℕ) (c : String) (v : DynValue) :
    (t.UpdateAt i c v).inserts = t.inserts := rfl

theorem insertLoop_owner (j : ℕ) (obj : List (String × DynValue)) (t : Txn) :
    (insertLoop j obj t).owner = t.owner := by
  induction obj generalizing t with
  | nil => rfl
  | cons kv rest ih =>
      show (insertLoop j rest _).owner = _
      rw [ih]
      dsimp only
      split <;> rfl

theorem insertLoop_index (j : ℕ) (obj : List (String × DynValue)) (t : Txn) :
    (insertLoop j obj t).index = t.index := by
  induction obj generalizing t with
  | nil => rfl
  | cons kv rest ih =>
      show (insertLoop j rest _).index = _
      rw [ih]
      dsimp only
      split <;> rfl

theorem insertLoop_deletes (j : ℕ) (obj : List (String × DynValue)) (t : Txn) :
    (insertLoop j obj t).deletes = t.deletes := by
  induction obj generalizing t with
  | nil => rfl
  | cons kv rest ih =>
      show (insertLoop j rest _).deletes = _
      rw [ih]
      dsimp only
      split <;> rfl

theorem insertLoop_inserts (j : ℕ) (obj : List (String × DynValue)) (t : Txn) :
    (insertLoop j obj t).inserts = t.inserts := by
  induction obj generalizing t with
  | nil => rfl
  | cons kv rest ih =>
      show (insertLoop j rest _).inserts = _
      rw [ih]
      dsimp only
      split <;> rfl

theorem insert_snd (t : Txn) (obj : List (String × DynValue)) (e : Int) :
    (t.insert obj e).2 = t.owner.next t.inserts := by
  unfold Txn.insert
  split <;> rfl

theorem insert_owner (t : Txn) (obj : List (String × DynValue)) (e : Int) :
    (t.insert obj e).1.owner = t.owner := by
  unfold Txn.insert
  split
  · rw [UpdateAt_owner, insertLoop_owner]
  · rw [insertLoop_owner]

theorem insert_index (t : Txn) (obj : List (String × DynValue)) (e : Int) :
    (t.insert obj e).1.index = t.index := by
  unfold Txn.insert
  split
  · rw [UpdateAt_index, insertLoop_index]
  · rw [insertLoop_index]

theorem insert_deletes (t : Txn) (obj : List (String × DynValue)) (e : Int) :
    (t.insert obj e).1.deletes = t.deletes := by
  unfold Txn.insert
  split
  · rw [UpdateAt_deletes, insertLoop_deletes]
  · rw [insertLoop_deletes]

theorem insert_inserts (t : Txn) (obj : List (String × DynValue)) (e : Int) :
    (t.insert obj e).1.inserts = Insert.insert (t.owner.next t.inserts) t.inserts := by
  unfold Txn.insert
  split
  · rw [UpdateAt_inserts, insertLoop_inserts]
  · rw [insertLoop_inserts]

/-! ### Frame lemmas for the commit phases -/

theorem deletePending_fill (t : Txn) :
    t.deletePending.owner.fill = t.owner.fill \ t.deletes := by
  unfold Txn.deletePending
  split
  · next h => rw [h, Finset.sdiff_empty]
  · rfl

theorem deletePending_deletes (t : Txn) : t.deletePending.deletes = ∅ := by
  unfold Txn.deletePending
  split
  · next h => exact h
  · rfl

theorem deletePending_inserts (t : Txn) : t.deletePending.inserts = t.inserts := by
  unfold Txn.deletePending; split <;> rfl

theorem deletePending_index (t : Txn) : t.deletePending.index = t.index := by
  unfold Txn.deletePending; split <;> rfl

theorem deletePending_updates (t : Txn) : t.deletePending.updates = t.updates := by
  unfold Txn.deletePending; split <;> rfl

theorem updatePending_fill (t : Txn) : t.updatePending.owner.fill = t.owner.fill := rfl

theorem updatePending_deletes (t : Txn) : t.updatePending.deletes = t.deletes := rfl

theorem updatePending_inserts (t : Txn) : t.updatePending.inserts = t.inserts := rfl

theorem updatePending_index (t : Txn) : t.updatePending.index = t.index := rfl

theorem insertPending_fill (t : Txn) :
    t.insertPending.owner.fill = t.owner.fill ∪ t.inserts := by
  unfold Txn.insertPending
  split
  · next h => rw [h, Finset.union_empty]
  · rfl

theorem insertPending_inserts (t : Txn) : t.insertPending.inserts = ∅ := by
  unfold Txn.insertPending
  split
  · next h => exact h
  · rfl

theorem insertPending_deletes (t : Txn) : t.insertPending.deletes = t.deletes := by
  unfold Txn.insertPending; split <;> rfl

theorem insertPending_index (t : Txn) : t.insertPending.index = t.index := by
  unfold Txn.insertPending; split <;> rfl

theorem insertPending_updates (t : Txn) : t.insertPending.updates = t.updates := by
  unfold Txn.insertPending; split <;> rfl

theorem Commit_fill (t : Txn) :
    t.Commit.owner.fill = (t.owner.fill \ t.deletes) ∪ t.inserts := by
  unfold Txn.Commit
  rw [insertPending_fill, updatePending_inserts, deletePending_inserts,
    updatePending_fill, deletePending_fill]

theorem Commit_deletes (t : Txn) : t.Commit.deletes = ∅ := by
  unfold Txn.Commit
  rw [insertPending_deletes, updatePending_deletes, deletePending_deletes]

theorem Commit_inserts (t : Txn) : t.Commit.inserts = ∅ := by
  unfold Txn.Commit
  rw [insertPending_inserts]

theorem Commit_index (t : Txn) : t.Commit.index = t.index := by
  unfold Txn.Commit
  rw [insertPending_index, updatePending_index, deletePending_index]

/-! ### Update queue contents -/

theorem queueBodyL_cons_of_eq (q : updateQueue) (rest : List updateQueue) (m : String)
    (h : (q.name == m) = true) :
    queueBodyL (q :: rest) m = q.update := by
  simp [queueBodyL, List.find?_cons, h]

theorem queueBodyL_cons_of_ne (q : updateQueue) (rest : List updateQueue) (m : String)
    (h : (q.name == m) = false) :
    queueBodyL (q :: rest) m = queueBodyL rest m := by
  simp [queueBodyL, List.find?_cons, h]

theorem queueBodyL_enqueueAt (qs : List updateQueue) (c : String) (u : Update) (m : String) :
    queueBodyL (enqueueAt qs c u) m =
      if m = c then queueBodyL qs m ++ [u] else queueBodyL qs m := by
  induction qs with
  | nil =>
      by_cases h : m = c
      · subst h
        simp [enqueueAt, queueBodyL, List.find?]
      · have hcm : (c == m) = false := by
          simp only [beq_eq_false_iff_ne, ne_eq]
          intro hc; exact h hc.symm
        simp [enqueueAt, queueBodyL, List.find?, hcm, h]
  | cons q rest ih =>
      by_cases hqc : q.name = c
      · have hbc : (q.name == c) = true := by simp [hqc]
        have henq : enqueueAt (q :: rest) c u = ⟨q.name, q.update ++ [u]⟩ :: rest := by
          simp [enqueueAt, hbc]
        rw [henq]
        by_cases hm : m = c
        · have hqm : (q.name == m) = true := by simp [hqc, hm]
          rw [queueBodyL_cons_of_eq ⟨q.name, q.update ++ [u]⟩ rest m hqm, if_pos hm,
            queueBodyL_cons_of_eq q rest m hqm]
        · have hqm : (q.name == m) = false := by
            simp only [beq_eq_false_iff_ne, ne_eq, hqc]
            intro hc; exact hm hc.symm
          rw [queueBodyL_cons_of_ne ⟨q.name, q.update ++ [u]⟩ rest m hqm, if_neg hm,
            queueBodyL_cons_of_ne q rest m hqm]
      · have hbc : (q.name == c) = false := by simp [hqc]
        have henq : enqueueAt (q :: rest) c u = q :: enqueueAt rest c u := by
          simp [enqueueAt, hbc]
        rw [henq]
        by_cases hqm : q.name = m
        · have hb : (q.name == m) = true := by simp [hqm]
          have hmc : ¬ m = c := by rw [← hqm]; exact hqc
          rw [queueBodyL_cons_of_eq _ _ _ hb, if_neg hmc,
            queueBodyL_cons_of_eq _ _ _ hb]
        · have hb : (q.name == m) = false := by simp [hqm]
          rw [queueBodyL_cons_of_ne _ _ _ hb, ih,
            queueBodyL_cons_of_ne _ _ _ hb]

theorem queueBody_UpdateAt (t : Txn) (i : ℕ) (c : String) (v : DynValue) (m : String) :
    (t.UpdateAt i c v).queueBody m =
      if m = c then t.queueBody m ++ [⟨.UpdatePut, i, v⟩] else t.queueBody m :=
  queueBodyL_enqueueAt t.updates c ⟨.UpdatePut, i, v⟩ m

theorem insertLoop_queueBody (j : ℕ) (obj : List (String × DynValue)) (t : Txn) (m : String) :
    (insertLoop j obj t).queueBody m =
      t.queueBody m ++
        (if (t.columnAt m).isSome = true then
          (obj.filter (fun kv => kv.1 == m)).map (fun kv => ⟨.UpdatePut, j, kv.2⟩) else []) := by
  induction obj generalizing t with
  | nil => simp [insertLoop]
  | cons kv rest ih =>
      show (insertLoop j rest _).queueBody m = _
      dsimp only
      by_cases hk : (t.columnAt kv.1).isSome = true
      · rw [if_pos hk, ih, columnAt_of_owner_eq (UpdateAt_owner t j kv.1 kv.2),
          queueBody_UpdateAt]
        by_cases hm : m = kv.1
        · rw [if_pos hm, hm, if_pos hk, if_pos hk]
          simp [List.filter_cons]
        · have hbeq : (kv.1 == m) = false := by
            simp only [beq_eq_false_iff_ne, ne_eq]
            intro hc; exact hm hc.symm
          rw [if_neg hm]
          simp only [List.filter_cons, hbeq, Bool.false_eq_true, if_false]
      · rw [if_neg hk, ih]
        by_cases hm : m = kv.1
        · have hcm : (t.columnAt m).isSome = false := by
            rw [hm]; exact Bool.not_eq_true _ |>.mp hk
          rw [hcm]
          simp
        · have hbeq : (kv.1 == m) = false := by
            simp only [beq_eq_false_iff_ne, ne_eq]
            intro hc; exact hm hc.symm
          simp only [List.filter_cons, hbeq, Bool.false_eq_true, if_false]

theorem filter_keys_singleton (obj : List (String × DynValue)) (kv : String × DynValue)
    (hnd : (obj.map Prod.fst).Nodup) (hmem : kv ∈ obj) :
    obj.filter (fun p => p.1 == kv.1) = [kv] := by
  induction obj with
  | nil => cases hmem
  | cons a rest ih =>
      rw [List.map_cons, List.nodup_cons] at hnd
      rcases List.mem_cons.mp hmem with h | h
      · subst h
        have hrest : rest.filter (fun p => p.1 == kv.1) = [] := by
          rw [List.filter_eq_nil_iff]
          intro p hp
          simp only [beq_iff_eq]
          intro hpk
          exact hnd.1 (hpk ▸ List.mem_map_of_mem Prod.fst hp)
        simp [List.filter_cons, hrest]
      · have hne : (a.1 == kv.1) = false := by
          simp only [beq_eq_false_iff_ne, ne_eq]
          intro hc
          exact hnd.1 (hc ▸ List.mem_map_of_mem Prod.fst h)
        simp only [List.filter_cons, hne, Bool.false_eq_true, if_false]
        exact ih hnd.2 h

theorem filter_keys_nil (obj : List (String × DynValue)) (m : String)
    (h : m ∉ obj.map Prod.fst) :
    obj.filter (fun p => p.1 == m) = [] := by
  rw [List.filter_eq_nil_iff]
  intro p hp
  simp only [beq_iff_eq]
  intro hpk
  exact h (hpk ▸ List.mem_map_of_mem Prod.fst hp)

/-! ### Registry lookups through the commit phases -/

theorem find?_map_key (cols : List (String × List Column))
    (g : (String × List Column) → List Column) (m : String) :
    (cols.map (fun p => (p.1, g p))).find? (fun p => p.1 == m) =
      (cols.find? (fun p => p.1 == m)).map (fun p => (p.1, g p)) := by
  induction cols with
  | nil => rfl
  | cons a rest ih =>
      by_cases h : (a.1 == m) = true
      · simp [List.find?_cons, h]
      · rw [Bool.not_eq_true] at h
        simp [List.find?_cons, h, ih]

theorem lookupCols_isEmpty_map_val (cols : List (String × List Column))
    (f : Column → Column) (m : String) :
    (lookupCols (cols.map (fun p => (p.1, p.2.map f))) m).isEmpty =
      (lookupCols cols m).isEmpty := by
  unfold lookupCols
  rw [find?_map_key cols (fun p => p.2.map f) m]
  cases h : cols.find? (fun p => p.1 == m) with
  | none => rfl
  | some p =>
      show (p.2.map f).isEmpty = p.2.isEmpty
      cases p.2 <;> rfl

theorem deletePending_LoadWithIndex_isEmpty (t : Txn) (m : String) :
    (t.deletePending.owner.LoadWithIndex m).isEmpty = (t.owner.LoadWithIndex m).isEmpty := by
  unfold Txn.deletePending
  split
  · rfl
  · exact lookupCols_isEmpty_map_val t.owner.cols (fun c => c.DeleteMany t.deletes) m

/-! ### Emptiness propagation through With chains -/

theorem existAt_empty_of_missing (t : Txn) (n : String)
    (h : (t.columnAt n).isSome = false) : t.existAt n = ∅ := by
  unfold Txn.existAt
  cases hc : t.columnAt n with
  | none => rfl
  | some c => rw [hc] at h; cases h

theorem foldl_inter_from_empty (l : List String) (t : Txn) :
    l.foldl (fun s n => s ∩ t.existAt n) ∅ = ∅ := by
  induction l with
  | nil => rfl
  | cons n l ih =>
      simp only [List.foldl_cons, Finset.empty_inter]
      exact ih

theorem foldl_inter_eq_empty_of_mem (t : Txn) (n : String) (hempty : t.existAt n = ∅) :
    ∀ (l : List String) (s : Finset ℕ), n ∈ l →
      l.foldl (fun s m => s ∩ t.existAt m) s = ∅ := by
  intro l
  induction l with
  | nil => intro s h; cases h
  | cons a l ih =>
      intro s h
      simp only [List.foldl_cons]
      rcases List.mem_cons.mp h with h1 | h1
      · rw [← h1, hempty, Finset.inter_empty]
        exact foldl_inter_from_empty l t
      · exact ih (s ∩ t.existAt a) h1

/-! ### Preservation machinery for the staged-delete invariant -/

theorem apply_deletes_of_not_delete (o : Op) (t : Txn) (h : o.isDelete = false) :
    (o.apply t).deletes = t.deletes := by
  cases o with
  | opWith c e => exact foldl_withStep_deletes (c :: e) t
  | opWithout c e => exact foldl_withoutStep_deletes (c :: e) t
  | opUnion c e => exact foldl_unionStep_deletes (c :: e) t
  | opWithValue c p => exact WithValue_deletes t c p
  | opDeleteAt i => simp [Op.isDelete] at h
  | opDeleteIf f => simp [Op.isDelete] at h
  | opDeleteAll => simp [Op.isDelete] at h
  | opInsert obj e => exact insert_deletes t obj e
  | opUpdateAt i c v => rfl

theorem applyOps_deletes_of_no_delete (ops : List Op) (t : Txn)
    (h : ∀ o ∈ ops, o.isDelete = false) :
    (applyOps ops t).deletes = t.deletes := by
  induction ops generalizing t with
  | nil => rfl
  | cons o rest ih =>
      show (applyOps rest (o.apply t)).deletes = t.deletes
      rw [ih (o.apply t) (fun x hx => h x (List.mem_cons_of_mem o hx)),
        apply_deletes_of_not_delete o t (h o (List.mem_cons_self o rest))]

theorem apply_inv_of_not_filter (o : Op) (t : Txn) (h : o.isFilter = false)
    (hinv : txnInv t) : txnInv (o.apply t) := by
  cases o with
  | opWith c e => simp [Op.isFilter] at h
  | opWithout c e => simp [Op.isFilter] at h
  | opWithValue c p => simp [Op.isFilter] at h
  | opUnion c e =>
      unfold txnInv at hinv ⊢
      show (t.Union c e).deletes ⊆ (t.Union c e).index ∪ (t.Union c e).inserts
      unfold Txn.Union
      rw [foldl_unionStep_deletes, foldl_unionStep_inserts]
      intro x hx
      rcases Finset.mem_union.mp (hinv hx) with hx1 | hx1
      · exact Finset.mem_union_left _ (foldl_unionStep_index_mono (c :: e) t hx1)
      · exact Finset.mem_union_right _ hx1
  | opDeleteAt i =>
      unfold txnInv at hinv ⊢
      show (t.DeleteAt i).1.deletes ⊆ (t.DeleteAt i).1.index ∪ (t.DeleteAt i).1.inserts
      unfold Txn.DeleteAt
      split
      · next hmem =>
          dsimp only
          rw [Finset.insert_subset_iff]
          exact ⟨Finset.mem_union_left _ hmem, hinv⟩
      · exact hinv
  | opDeleteIf f =>
      unfold txnInv at hinv ⊢
      show t.deletes ∪ t.index.filter (fun x => f x = true) ⊆ t.index ∪ t.inserts
      exact Finset.union_subset hinv
        (fun x hx => Finset.mem_union_left _ (Finset.mem_of_mem_filter x hx))
  | opDeleteAll =>
      unfold txnInv at hinv ⊢
      show t.deletes ∪ t.index ⊆ t.index ∪ t.inserts
      exact Finset.union_subset hinv (fun x hx => Finset.mem_union_left _ hx)
  | opInsert obj e =>
      unfold txnInv at hinv ⊢
      show (t.insert obj e).1.deletes ⊆ (t.insert obj e).1.index ∪ (t.insert obj e).1.inserts
      rw [insert_deletes, insert_index, insert_inserts]
      intro x hx
      rcases Finset.mem_union.mp (hinv hx) with hx1 | hx1
      · exact Finset.mem_union_left _ hx1
      · exact Finset.mem_union_right _ (Finset.mem_insert_of_mem hx1)
  | opUpdateAt i c v => exact hinv

theorem applyOps_inv_of_no_filter (ops : List Op) (t : Txn)
    (h : ∀ o ∈ ops, o.isFilter = false) (hinv : txnInv t) :
    txnInv (applyOps ops t) := by
  induction ops generalizing t with
  | nil => exact hinv
  | cons o rest ih =>
      show txnInv (applyOps rest (o.apply t))
      exact ih (o.apply t) (fun x hx => h x (List.mem_cons_of_mem o hx))
        (apply_inv_of_not_filter o t (h o (List.mem_cons_self o rest)) hinv)

theorem Commit_updates (t : Txn) :
    t.Commit.updates = t.updates.map (fun u =>
      if u.update.isEmpty then u
      else if (t.owner.LoadWithIndex u.name).isEmpty then u
      else ⟨u.name, []⟩) := by
  unfold Txn.Commit
  rw [insertPending_updates]
  show t.deletePending.updates.map _ = _
  rw [deletePending_updates]
  apply List.map_congr_left
  intro u _
  rw [deletePending_LoadWithIndex_isEmpty]

theorem With_index (txn : Txn) (column : String) (extra : List String) :
    (txn.With column extra).index =
      (column :: extra).foldl (fun s n => s ∩ txn.existAt n) txn.index :=
  foldl_withStep_index (column :: extra) txn

theorem cursorFor_error (txn : Txn) (c : String) (hc : txn.columnAt c = none) :
    txn.cursorFor c = .error ("column: specified column " ++ c ++ " does not exist") := by
  unfold Txn.cursorFor
  rw [hc]

theorem cursorFor_ok (txn : Txn) (c : String) (hc : (txn.columnAt c).isSome = true) :
    ∃ t i, txn.cursorFor c = .ok (t, i) := by
  unfold Txn.cursorFor
  cases hcc : txn.columnAt c with
  | none => rw [hcc] at hc; cases hc
  | some col =>
      cases hfi : txn.updates.findIdx? (fun q => q.name == c) with
      | some i => exact ⟨txn, i, rfl⟩
      | none => exact ⟨_, _, rfl⟩

theorem Range_of_error (txn : Txn) (c : String) (fn : ℕ → Bool)
    (hc : txn.columnAt c = none) :
    txn.Range c fn = (.error ("column: specified column " ++ c ++ " does not exist"), []) := by
  unfold Txn.Range
  rw [cursorFor_error txn c hc]

theorem Range_ok (txn : Txn) (c : String) (fn : ℕ → Bool)
    (hc : (txn.columnAt c).isSome = true) :
    ∃ t, (txn.Range c fn).1 = .ok t := by
  obtain ⟨t, i, h⟩ := cursorFor_ok txn c hc
  unfold Txn.Range
  rw [h]
  exact ⟨t, rfl⟩

/-! ## The claims -/

/-- C1: `commit()` runs the three phases in the fixed order delete, update,
insert; letting `D` and `N` be the staged deletes and inserts immediately
before the call, the owner's fill afterwards equals `(fill \ D) ∪ N`,
every staged insert is present in fill, every staged delete is absent from
fill (stated under disjointness of `D` and `N`, which the allocator
contract guarantees for transactions built through the API: a staged
delete was in the working index, a staged insert never is), and the
transaction's deletes and inserts bitmaps are cleared. -/
theorem commit_phases_fill (txn : Txn) :
    txn.Commit = txn.deletePending.updatePending.insertPending ∧
    txn.Commit.owner.fill = (txn.owner.fill \ txn.deletes) ∪ txn.inserts ∧
    txn.Commit.deletes = ∅ ∧
    txn.Commit.inserts = ∅ ∧
    (∀ i ∈ txn.inserts, i ∈ txn.Commit.owner.fill) ∧
    (txn.deletes ∩ txn.inserts = ∅ →
      ∀ i ∈ txn.deletes, i ∉ txn.Commit.owner.fill) := by
  refine ⟨rfl, Commit_fill txn, Commit_deletes txn, Commit_inserts txn, ?_, ?_⟩
  · intro i hi
    rw [Commit_fill]
    exact Finset.mem_union_right _ hi
  · intro hdisj i hi hmem
    rw [Commit_fill] at hmem
    rcases Finset.mem_union.mp hmem with h1 | h1
    · exact (Finset.mem_sdiff.mp h1).2 hi
    · have hint : i ∈ txn.deletes ∩ txn.inserts := Finset.mem_inter.mpr ⟨hi, h1⟩
      rw [hdisj] at hint
      exact absurd hint (Finset.not_mem_empty i)

/-- C1 witness: a transaction with staged delete of row 5 and staged
insert of row 7 over a collection with fill containing 5. -/
theorem commit_phases_fill_witness :
    exTxnStaged.deletes ∩ exTxnStaged.inserts = ∅ ∧
    (∀ i ∈ exTxnStaged.deletes, i ∉ exTxnStaged.Commit.owner.fill) ∧
    exTxnStaged.Commit.owner.fill =
      (exTxnStaged.owner.fill \ exTxnStaged.deletes) ∪ exTxnStaged.inserts :=
  ⟨by decide,
   (commit_phases_fill exTxnStaged).2.2.2.2.2 (by decide),
   (commit_phases_fill exTxnStaged).2.1⟩

/-- C2: `With(column, extra...)` replaces the working index by its
intersection with every named column's existence bitmap when every named
column exists; when any named column is missing, the working index becomes
empty and a subsequent `Count` returns 0. -/
theorem with_filter_semantics (txn : Txn) (column : String) (extra : List String) :
    ((∀ n ∈ column :: extra, (txn.columnAt n).isSome = true) →
      (txn.With column extra).index =
        (column :: extra).foldl (fun s n => s ∩ txn.existAt n) txn.index) ∧
    ((∃ n ∈ column :: extra, (txn.columnAt n).isSome = false) →
      (txn.With column extra).index = ∅ ∧ (txn.With column extra).Count = 0) := by
  constructor
  · intro _
    exact With_index txn column extra
  · rintro ⟨n, hmem, hmiss⟩
    have hidx : (txn.With column extra).index = ∅ := by
      rw [With_index]
      exact foldl_inter_eq_empty_of_mem txn n (existAt_empty_of_missing txn n hmiss)
        (column :: extra) txn.index hmem
    refine ⟨hidx, ?_⟩
    unfold Txn.Count
    rw [hidx]
    rfl

/-- C2 witness: on a collection with only column `a` populated at row 5,
filtering by `a` intersects, and filtering by `a` then the unknown `b`
yields a count of 0. -/
theorem with_filter_semantics_witness :
    ((aquireTxn exColl).With "a" []).index =
      ("a" :: []).foldl (fun s n => s ∩ (aquireTxn exColl).existAt n)
        (aquireTxn exColl).index ∧
    ((aquireTxn exColl).With "a" ["b"]).Count = 0 :=
  ⟨(with_filter_semantics (aquireTxn exColl) "a" []).1 (by decide),
   ((with_filter_semantics (aquireTxn exColl) "a" ["b"]).2 ⟨"b", by decide, by decide⟩).2⟩

/-- C3 counterexample: committing a transaction whose only non-empty queue
names a column that is not registered in the owner leaves that queue
non-empty, so not every update queue is reset by commit. -/
theorem commit_ghost_queue_counterexample :
    (exTxnGhost.Commit.updates.all (fun q => q.update.isEmpty)) = false := by
  decide

/-- C3 amended: after `commit()`, every queue whose column name has at
least one registered column has been reset to empty; a queue whose name
has no registered column is carried over unchanged (so a non-empty queue
for an unregistered name survives commit and is carried back to the
pool). -/
theorem commit_resets_registered_queues (txn : Txn) :
    (∀ q ∈ txn.Commit.updates,
      (txn.owner.LoadWithIndex q.name).isEmpty = false → q.update = []) ∧
    (∀ u ∈ txn.updates,
      (txn.owner.LoadWithIndex u.name).isEmpty = true → u ∈ txn.Commit.updates) := by
  constructor
  · intro q hq hreg
    rw [Commit_updates] at hq
    rcases List.mem_map.mp hq with ⟨u, hu, hqu⟩
    by_cases h1 : u.update.isEmpty = true
    · rw [if_pos h1] at hqu
      rw [← hqu]
      exact List.isEmpty_iff.mp h1
    · rw [if_neg h1] at hqu
      by_cases h2 : (txn.owner.LoadWithIndex u.name).isEmpty = true
      · rw [if_pos h2] at hqu
        rw [← hqu] at hreg
        rw [h2] at hreg
        cases hreg
      · rw [if_neg h2] at hqu
        rw [← hqu]
  · intro u hu hreg
    rw [Commit_updates]
    apply List.mem_map.mpr
    refine ⟨u, hu, ?_⟩
    by_cases h1 : u.update.isEmpty = true
    · rw [if_pos h1]
    · rw [if_neg h1, if_pos hreg]

/-- C3 amended witness: committing a transaction with a queue for the
registered column `a` and a queue for the unregistered name `ghost`
resets the former and carries the latter over. -/
theorem commit_resets_registered_queues_witness :
    (⟨"a", []⟩ : updateQueue).update = [] ∧
    (⟨"ghost", [ghostUpd]⟩ : updateQueue) ∈ exTxnMixed.Commit.updates :=
  ⟨(commit_resets_registered_queues exTxnMixed).1 ⟨"a", []⟩ (by decide) (by decide),
   (commit_resets_registered_queues exTxnMixed).2 ⟨"ghost", [ghostUpd]⟩ (by decide)
     (by decide)⟩

/-- C4 counterexample: a filter after a staged delete violates the
invariant: deleting the selected row 5 and then filtering by the unknown
column `b` clears the working index while row 5 stays staged for
deletion, with empty inserts. -/
theorem deletes_invariant_counterexample :
    ¬ txnInv (applyOps [Op.opDeleteAt 5, Op.opWith "b" []] (aquireTxn exColl)) := by
  decide

/-- C4 amended: delete, insert and update operations preserve
`deletes ⊆ index ∪ inserts`, but a filter can shrink the working index
below already staged deletes; the invariant therefore holds at every
point of every operation sequence in which no filter call follows a
delete call (every point of such a sequence is reached by a pair of lists
of this shape). -/
theorem deletes_invariant_phased (owner : Collection) (fs ds : List Op)
    (hfs : ∀ o ∈ fs, o.isDelete = false) (hds : ∀ o ∈ ds, o.isFilter = false) :
    txnInv (applyOps ds (applyOps fs (aquireTxn owner))) := by
  apply applyOps_inv_of_no_filter ds _ hds
  unfold txnInv
  rw [applyOps_deletes_of_no_delete fs _ hfs]
  show (∅ : Finset ℕ) ⊆ _
  exact Finset.empty_subset _

/-- C4 amended witness: filter then delete keeps the invariant. -/
theorem deletes_invariant_phased_witness :
    txnInv (applyOps [Op.opDeleteAt 5] (applyOps [Op.opWith "a" []] (aquireTxn exColl))) :=
  deletes_invariant_phased exColl [Op.opWith "a" []] [Op.opDeleteAt 5]
    (by decide) (by decide)

/-- C5: `insert(object, expireAt)` reserves the fresh row index `j`, sets
it in the inserts bitmap, enqueues exactly one Put at `j` for each key of
the object whose column exists (keys naming no registered column enqueue
nothing), enqueues a Put on the reserved TTL column iff `expireAt` is
nonzero, and returns `j` leaving the working index unchanged, so the new
row stays invisible to this transaction's own filters and iteration. -/
theorem insert_enqueues_puts (txn : Txn) (object : List (String × DynValue)) (expireAt : Int)
    (hnd : (object.map Prod.fst).Nodup) (hexp : expireColumn ∉ object.map Prod.fst) :
    (txn.insert object expireAt).2 = txn.owner.next txn.inserts ∧
    (txn.insert object expireAt).1.inserts =
      Insert.insert ((txn.insert object expireAt).2) txn.inserts ∧
    (txn.insert object expireAt).1.index = txn.index ∧
    ((txn.insert object expireAt).2 ∉ txn.index →
      (txn.insert object expireAt).2 ∉ (txn.insert object expireAt).1.index) ∧
    (∀ kv ∈ object, (txn.columnAt kv.1).isSome = true →
      (txn.insert object expireAt).1.queueBody kv.1 =
        txn.queueBody kv.1 ++
          [⟨.UpdatePut, (txn.insert object expireAt).2, kv.2⟩]) ∧
    (∀ kv ∈ object, (txn.columnAt kv.1).isSome = false →
      (txn.insert object expireAt).1.queueBody kv.1 = txn.queueBody kv.1) ∧
    (expireAt ≠ 0 →
      (txn.insert object expireAt).1.queueBody expireColumn =
        txn.queueBody expireColumn ++
          [⟨.UpdatePut, (txn.insert object expireAt).2, .vint expireAt⟩]) ∧
    (expireAt = 0 →
      (txn.insert object expireAt).1.queueBody expireColumn =
        txn.queueBody expireColumn) := by
  have ht2q : ∀ m, (insertLoop (txn.owner.next txn.inserts) object
      { txn with inserts := Insert.insert (txn.owner.next txn.inserts) txn.inserts }).queueBody m =
      txn.queueBody m ++
        (if (txn.columnAt m).isSome = true then
          (object.filter (fun kv => kv.1 == m)).map
            (fun kv => ⟨.UpdatePut, txn.owner.next txn.inserts, kv.2⟩) else []) :=
    fun m => insertLoop_queueBody (txn.owner.next txn.inserts) object _ m
  have h1 : (txn.insert object expireAt).1 =
      (if expireAt ≠ 0 then
        ((insertLoop (txn.owner.next txn.inserts) object
          { txn with inserts := Insert.insert (txn.owner.next txn.inserts) txn.inserts }).UpdateAt
            (txn.owner.next txn.inserts) expireColumn (.vint expireAt))
      else
        insertLoop (txn.owner.next txn.inserts) object
          { txn with inserts := Insert.insert (txn.owner.next txn.inserts) txn.inserts }) := rfl
  refine ⟨insert_snd txn object expireAt, ?_, insert_index txn object expireAt, ?_, ?_, ?_, ?_, ?_⟩
  · rw [insert_snd]
    exact insert_inserts txn object expireAt
  · intro h
    rw [insert_index]
    exact h
  · intro kv hkv hsome
    have hne : kv.1 ≠ expireColumn := fun hc => hexp (hc ▸ List.mem_map_of_mem Prod.fst hkv)
    rw [insert_snd, h1]
    by_cases he : expireAt ≠ 0
    · rw [if_pos he, queueBody_UpdateAt, if_neg hne, ht2q kv.1, if_pos hsome,
        filter_keys_singleton object kv hnd hkv]
      rfl
    · rw [if_neg he, ht2q kv.1, if_pos hsome, filter_keys_singleton object kv hnd hkv]
      rfl
  · intro kv hkv hnone
    have hne : kv.1 ≠ expireColumn := fun hc => hexp (hc ▸ List.mem_map_of_mem Prod.fst hkv)
    have hns : ¬ ((txn.columnAt kv.1).isSome = true) := by
      rw [hnone]; exact Bool.false_ne_true
    rw [h1]
    by_cases he : expireAt ≠ 0
    · rw [if_pos he, queueBody_UpdateAt, if_neg hne, ht2q kv.1, if_neg hns,
        List.append_nil]
    · rw [if_neg he, ht2q kv.1, if_neg hns, List.append_nil]
  · intro he
    rw [insert_snd, h1, if_pos he, queueBody_UpdateAt, if_pos rfl, ht2q expireColumn,
      filter_keys_nil object expireColumn hexp]
    simp
  · intro he0
    have hne : ¬ (expireAt ≠ 0) := by simp [he0]
    rw [h1, if_neg hne, ht2q expireColumn, filter_keys_nil object expireColumn hexp]
    simp

/-- C5 witness: inserting an object with a known key `a`, an unknown key
`x` and a TTL into a fresh transaction over the one-column collection. -/
theorem insert_enqueues_puts_witness :
    ((aquireTxn exColl).insert [("a", .vint 3), ("x", .vint 4)] 5).1.queueBody "a" =
      (aquireTxn exColl).queueBody "a" ++
        [⟨.UpdatePut, ((aquireTxn exColl).insert [("a", .vint 3), ("x", .vint 4)] 5).2, .vint 3⟩] ∧
    ((aquireTxn exColl).insert [("a", .vint 3), ("x", .vint 4)] 5).1.queueBody "x" =
      (aquireTxn exColl).queueBody "x" ∧
    ((aquireTxn exColl).insert [("a", .vint 3), ("x", .vint 4)] 5).1.queueBody expireColumn =
      (aquireTxn exColl).queueBody expireColumn ++
        [⟨.UpdatePut, ((aquireTxn exColl).insert [("a", .vint 3), ("x", .vint 4)] 5).2, .vint 5⟩] :=
  ⟨(insert_enqueues_puts (aquireTxn exColl) [("a", .vint 3), ("x", .vint 4)] 5
      (by decide) (by decide)).2.2.2.2.1 ("a", .vint 3) (by decide) (by decide),
   (insert_enqueues_puts (aquireTxn exColl) [("a", .vint 3), ("x", .vint 4)] 5
      (by decide) (by decide)).2.2.2.2.2.1 ("x", .vint 4) (by decide) (by decide),
   (insert_enqueues_puts (aquireTxn exColl) [("a", .vint 3), ("x", .vint 4)] 5
      (by decide) (by decide)).2.2.2.2.2.2.1 (by decide)⟩

/-- C6: `rollback()` clears the deletes bitmap, the inserts bitmap and the
body of every update queue while retaining queue names and leaving the
working index (and the owner) unchanged; rolling back twice equals rolling
back once. -/
theorem rollback_clears_and_idempotent (txn : Txn) :
    txn.Rollback.deletes = ∅ ∧
    txn.Rollback.inserts = ∅ ∧
    txn.Rollback.updates = txn.updates.map (fun q => ⟨q.name, []⟩) ∧
    txn.Rollback.index = txn.index ∧
    txn.Rollback.owner = txn.owner ∧
    txn.Rollback.Rollback = txn.Rollback := by
  refine ⟨rfl, rfl, rfl, rfl, rfl, ?_⟩
  show Txn.Rollback (Txn.Rollback txn) = Txn.Rollback txn
  unfold Txn.Rollback
  dsimp only
  rw [List.map_map]
  have hcomp : ((fun q : updateQueue => (⟨q.name, []⟩ : updateQueue)) ∘
      fun q : updateQueue => (⟨q.name, []⟩ : updateQueue)) =
      fun q : updateQueue => (⟨q.name, []⟩ : updateQueue) := by
    funext q
    rfl
  rw [hcomp]

/-- C7 counterexample: `WithString` on a column holding a present
non-string value faults (the Go string type assertion in its closure
panics), modelled by the `none` result: it is not a soft failure. -/
theorem withString_panic_counterexample :
    ((aquireTxn exCollNum).WithString "s" (fun _ => true)).isNone = true := by
  decide

/-- C7 amended: when every row of the working index holds, at the named
column, either no value or a string, `WithString(c, pred)` does not fault
and filters the working index exactly as `WithValue(c, softString pred)`;
a present non-string value at a visited row makes the call panic instead
(Go unchecked type assertion), as the counterexample shows. -/
theorem withString_soft_equiv (txn : Txn) (column : String) (predicate : String → Bool)
    (hsafe : ∀ x ∈ txn.index, txn.rowStringSafe column x = true) :
    txn.WithString column predicate = some (txn.WithValue column (softString predicate)) := by
  cases hc : txn.columnAt column with
  | none =>
      unfold Txn.WithString Txn.WithValue
      rw [hc]
  | some p =>
      have hall : ∀ x ∈ txn.index, (stringMatch p predicate x).isSome = true := by
        intro x hx
        have h1 := hsafe x hx
        unfold Txn.rowStringSafe at h1
        rw [hc] at h1
        dsimp only at h1
        unfold stringMatch
        cases hv : p.Value x with
        | none => rfl
        | some v =>
            rw [hv] at h1
            dsimp only at h1
            dsimp only
            cases hs : stringAssert v with
            | none => rw [hs] at h1; cases h1
            | some s => rfl
      have hfeq : txn.index.filter (fun x => stringMatch p predicate x = some true) =
          txn.index.filter (fun x => valueMatch p (softString predicate) x = true) := by
        apply Finset.filter_congr
        intro x _
        unfold stringMatch valueMatch
        cases hv : p.Value x with
        | none => simp
        | some v =>
            cases v with
            | vstr s => simp [stringAssert, softString]
            | vint n => simp [stringAssert, softString]
      unfold Txn.WithString Txn.WithValue
      rw [hc]
      dsimp only
      rw [if_pos hall, hfeq]

/-- C7 amended witness: on a column whose present value is the string hi,
`WithString` succeeds and coincides with the soft `WithValue` filter. -/
theorem withString_soft_equiv_witness :
    (aquireTxn exCollStr).WithString "s" (fun v => v == "hi") =
      some ((aquireTxn exCollStr).WithValue "s" (softString (fun v => v == "hi"))) :=
  withString_soft_equiv (aquireTxn exCollStr) "s" (fun v => v == "hi") (by decide)

/-- C8: `Range(column, fn)` returns an error iff no column with that name
is registered, and on error the callback is never invoked (the invocation
trace is empty). -/
theorem range_error_iff_missing (txn : Txn) (column : String) (fn : ℕ → Bool) :
    ((∃ e, (txn.Range column fn).1 = .error e) ↔ txn.columnAt column = none) ∧
    (txn.columnAt column = none → (txn.Range column fn).2 = []) := by
  constructor
  · constructor
    · rintro ⟨e, he⟩
      cases hc : txn.columnAt column with
      | none => rfl
      | some col =>
          obtain ⟨t, hok⟩ := Range_ok txn column fn (by rw [hc]; rfl)
          rw [he] at hok
          exact Except.noConfusion hok
    · intro hc
      exact ⟨_, by rw [Range_of_error txn column fn hc]⟩
  · intro hc
    rw [Range_of_error txn column fn hc]

/-- C8 witness: ranging over the unknown column `b` errors and invokes the
callback on no row. -/
theorem range_error_iff_missing_witness :
    ((aquireTxn exColl).Range "b" (fun _ => true)).2 = [] ∧
    (∃ e, ((aquireTxn exColl).Range "b" (fun _ => true)).1 = .error e) :=
  ⟨(range_error_iff_missing (aquireTxn exColl) "b" (fun _ => true)).2 rfl,
   ((range_error_iff_missing (aquireTxn exColl) "b" (fun _ => true)).1).mpr rfl⟩

/-- C9: `DeleteAt(i)` stages `i` for deletion and returns true exactly
when `i` is in the working index, and otherwise returns false leaving the
staged deletes unchanged; in particular an index in this transaction's
inserts bitmap but not in the working index cannot be deleted. -/
theorem deleteAt_semantics (txn : Txn) (i : ℕ) :
    (i ∈ txn.index →
      txn.DeleteAt i = ({ txn with deletes := Insert.insert i txn.deletes }, true)) ∧
    (i ∉ txn.index → txn.DeleteAt i = (txn, false)) ∧
    (i ∈ txn.inserts → i ∉ txn.index →
      (txn.DeleteAt i).2 = false ∧ (txn.DeleteAt i).1.deletes = txn.deletes) := by
  refine ⟨?_, ?_, ?_⟩
  · intro h
    unfold Txn.DeleteAt
    rw [if_pos h]
  · intro h
    unfold Txn.DeleteAt
    rw [if_neg h]
  · intro _ h
    unfold Txn.DeleteAt
    rw [if_neg h]
    exact ⟨rfl, rfl⟩

/-- C9 witness: row 5 is selected and gets staged; row 7 is an in-flight
insert outside the working index and is refused. -/
theorem deleteAt_semantics_witness :
    exTxnStaged.DeleteAt 5 =
      ({ exTxnStaged with deletes := Insert.insert 5 exTxnStaged.deletes }, true) ∧
    (exTxnStaged.DeleteAt 7).2 = false :=
  ⟨(deleteAt_semantics exTxnStaged 5).1 (by decide),
   ((deleteAt_semantics exTxnStaged 7).2.2 (by decide) (by decide)).1⟩

/-- C10: `commit()` never modifies the transaction's working index: the
index and hence `Count` are unchanged by commit, and every row staged for
deletion that was in the working index is still in it afterwards. -/
theorem commit_preserves_index (txn : Txn) :
    txn.Commit.index = txn.index ∧
    txn.Commit.Count = txn.Count ∧
    (∀ i ∈ txn.deletes, i ∈ txn.index → i ∈ txn.Commit.index) := by
  refine ⟨Commit_index txn, ?_, ?_⟩
  · unfold Txn.Count
    rw [Commit_index]
  · intro i _ hi
    rw [Commit_index]
    exact hi

/-- C10 witness: the staged-deleted row 5 is still in the working index
after commit. -/
theorem commit_preserves_index_witness :
    5 ∈ exTxnStaged.Commit.index :=
  (commit_preserves_index exTxnStaged).2.2 5 (by decide) (by decide)

/-! ### Reachable transactions have disjoint staged deletes and inserts

These supporting results justify the disjointness hypothesis of the
commit theorem: for every transaction built from `aquireTxn` over a
well-formed collection by any sequence of operations, the staged deletes
and the in-flight inserts never meet. -/

theorem freshIdx_not_mem (s : Finset ℕ) : freshIdx s ∉ s := by
  unfold freshIdx
  cases hfind : (List.range (s.card + 1)).find? (fun i => decide (i ∉ s)) with
  | some j =>
      have hj := List.find?_some hfind
      simp only [Option.getD_some]
      exact of_decide_eq_true hj
  | none =>
      exfalso
      have hall := List.find?_eq_none.mp hfind
      have hsub : Finset.range (s.card + 1) ⊆ s := by
        intro i hi
        have h2 := hall i (List.mem_range.mpr (Finset.mem_range.mp hi))
        by_contra hnot
        exact h2 (decide_eq_true hnot)
      have hcard := Finset.card_le_card hsub
      rw [Finset.card_range] at hcard
      omega

theorem next_fresh (c : Collection) (r : Finset ℕ) :
    c.next r ∉ c.fill ∧ c.next r ∉ r := by
  have h := freshIdx_not_mem (c.fill ∪ r)
  constructor
  · intro hmem
    exact h (Finset.mem_union_left _ hmem)
  · intro hmem
    exact h (Finset.mem_union_right _ hmem)

theorem Load_exist_subset (c : Collection) (hwf : c.wf) (n : String) (col : Column)
    (h : c.Load n = some col) : col.exist ⊆ c.fill := by
  unfold Collection.Load Collection.LoadWithIndex lookupCols at h
  cases hf : c.cols.find? (fun p => p.1 == n) with
  | none =>
      rw [hf] at h
      simp at h
  | some p =>
      rw [hf] at h
      dsimp only at h
      have hp : p ∈ c.cols := List.mem_of_find?_eq_some hf
      have hcol : col ∈ p.2 := by
        cases hl : p.2 with
        | nil => rw [hl] at h; cases h
        | cons a rest =>
            rw [hl] at h
            simp only [List.head?_cons, Option.some.injEq] at h
            rw [← h]
            exact List.mem_cons_self a rest
      exact hwf p hp col hcol

theorem existAt_subset_fill (t : Txn) (hwf : t.owner.wf) (n : String) :
    t.existAt n ⊆ t.owner.fill := by
  unfold Txn.existAt
  cases hc : t.columnAt n with
  | none => exact Finset.empty_subset _
  | some col => exact Load_exist_subset t.owner hwf n col hc

theorem apply_owner (o : Op) (t : Txn) : (o.apply t).owner = t.owner := by
  cases o with
  | opWith c e => exact foldl_withStep_owner (c :: e) t
  | opWithout c e => exact foldl_withoutStep_owner (c :: e) t
  | opUnion c e => exact foldl_unionStep_owner (c :: e) t
  | opWithValue c p => exact WithValue_owner t c p
  | opDeleteAt i =>
      show (t.DeleteAt i).1.owner = t.owner
      unfold Txn.DeleteAt
      split <;> rfl
  | opDeleteIf f => rfl
  | opDeleteAll => rfl
  | opInsert obj e => exact insert_owner t obj e
  | opUpdateAt i c v => rfl

theorem foldl_withStep_index_subset (l : List String) (t : Txn) :
    (l.foldl withStep t).index ⊆ t.index := by
  induction l generalizing t with
  | nil => exact fun _ h => h
  | cons n l ih =>
      simp only [List.foldl_cons]
      intro x hx
      have h2 := ih (withStep t n) hx
      rw [withStep_index] at h2
      exact (Finset.mem_inter.mp h2).1

theorem foldl_withoutStep_index_subset (l : List String) (t : Txn) :
    (l.foldl withoutStep t).index ⊆ t.index := by
  induction l generalizing t with
  | nil => exact fun _ h => h
  | cons n l ih =>
      simp only [List.foldl_cons]
      intro x hx
      have h2 := ih (withoutStep t n) hx
      rw [withoutStep_index] at h2
      exact (Finset.mem_sdiff.mp h2).1

theorem WithValue_index_subset (t : Txn) (c : String) (p : DynValue → Bool) :
    (t.WithValue c p).index ⊆ t.index := by
  unfold Txn.WithValue
  cases hc : t.columnAt c with
  | none => exact fun _ h => h
  | some col => exact Finset.filter_subset _ _

theorem foldl_unionStep_index_fill (l : List String) :
    ∀ t : Txn, t.owner.wf → t.index ⊆ t.owner.fill →
      (l.foldl unionStep t).index ⊆ t.owner.fill := by
  induction l with
  | nil => exact fun t _ h => h
  | cons n l ih =>
      intro t hwf h
      simp only [List.foldl_cons]
      have howner : (unionStep t n).owner = t.owner := unionStep_owner t n
      have h2 : (unionStep t n).index ⊆ (unionStep t n).owner.fill := by
        rw [unionStep_index, howner]
        exact Finset.union_subset h (existAt_subset_fill t hwf n)
      have h3 := ih (unionStep t n) (by rw [howner]; exact hwf) h2
      rw [howner] at h3
      exact h3

theorem stagedOK_mk (s t : Txn) (how : s.owner = t.owner)
    (h1 : s.index ⊆ t.owner.fill) (h2 : s.deletes ⊆ t.owner.fill)
    (h3 : ∀ x ∈ s.inserts, x ∉ t.owner.fill) : stagedOK s := by
  unfold stagedOK
  rw [how]
  exact ⟨h1, h2, h3⟩

theorem apply_stagedOK (o : Op) (t : Txn) (hwf : t.owner.wf) (h : stagedOK t) :
    stagedOK (o.apply t) := by
  obtain ⟨hidx, hdel, hins⟩ := h
  cases o with
  | opWith c e =>
      show stagedOK ((c :: e).foldl withStep t)
      exact stagedOK_mk _ t (foldl_withStep_owner (c :: e) t)
        (fun x hx => hidx (foldl_withStep_index_subset (c :: e) t hx))
        (by rw [foldl_withStep_deletes]; exact hdel)
        (by rw [foldl_withStep_inserts]; exact hins)
  | opWithout c e =>
      show stagedOK ((c :: e).foldl withoutStep t)
      exact stagedOK_mk _ t (foldl_withoutStep_owner (c :: e) t)
        (fun x hx => hidx (foldl_withoutStep_index_subset (c :: e) t hx))
        (by rw [foldl_withoutStep_deletes]; exact hdel)
        (by rw [foldl_withoutStep_inserts]; exact hins)
  | opUnion c e =>
      show stagedOK ((c :: e).foldl unionStep t)
      exact stagedOK_mk _ t (foldl_unionStep_owner (c :: e) t)
        (foldl_unionStep_index_fill (c :: e) t hwf hidx)
        (by rw [foldl_unionStep_deletes]; exact hdel)
        (by rw [foldl_unionStep_inserts]; exact hins)
  | opWithValue c p =>
      show stagedOK (t.WithValue c p)
      exact stagedOK_mk _ t (WithValue_owner t c p)
        (fun x hx => hidx (WithValue_index_subset t c p hx))
        (by rw [WithValue_deletes]; exact hdel)
        (by rw [WithValue_inserts]; exact hins)
  | opDeleteAt i =>
      show stagedOK (t.DeleteAt i).1
      unfold Txn.DeleteAt
      split
      · next hmem =>
          exact ⟨hidx, Finset.insert_subset_iff.mpr ⟨hidx hmem, hdel⟩, hins⟩
      · exact ⟨hidx, hdel, hins⟩
  | opDeleteIf f =>
      exact ⟨hidx,
        Finset.union_subset hdel
          (fun x hx => hidx (Finset.mem_of_mem_filter x hx)), hins⟩
  | opDeleteAll =>
      exact ⟨hidx, Finset.union_subset hdel hidx, hins⟩
  | opInsert obj e =>
      show stagedOK (t.insert obj e).1
      refine stagedOK_mk _ t (insert_owner t obj e)
        (by rw [insert_index]; exact hidx)
        (by rw [insert_deletes]; exact hdel) ?_
      rw [insert_inserts]
      intro x hx
      rcases Finset.mem_insert.mp hx with h1 | h1
      · rw [h1]
        exact (next_fresh t.owner t.inserts).1
      · exact hins x h1
  | opUpdateAt i c v => exact ⟨hidx, hdel, hins⟩

theorem applyOps_stagedOK (ops : List Op) :
    ∀ t : Txn, t.owner.wf → stagedOK t → stagedOK (applyOps ops t) := by
  induction ops with
  | nil => exact fun t _ h => h
  | cons o rest ih =>
      intro t hwf h
      show stagedOK (applyOps rest (o.apply t))
      exact ih (o.apply t) (by rw [apply_owner]; exact hwf)
        (apply_stagedOK o t hwf h)

theorem staged_disjoint_reachable (owner : Collection) (hwf : owner.wf) (ops : List Op) :
    (applyOps ops (aquireTxn owner)).deletes ∩ (applyOps ops (aquireTxn owner)).inserts = ∅ := by
  have h0 : stagedOK (aquireTxn owner) :=
    ⟨fun x h => h, Finset.empty_subset _,
     fun x hx => absurd hx (Finset.not_mem_empty x)⟩
  obtain ⟨hidx, hdel, hins⟩ := applyOps_stagedOK ops (aquireTxn owner) hwf h0
  apply Finset.eq_empty_iff_forall_not_mem.mpr
  intro x hx
  have hx1 := Finset.mem_inter.mp hx
  exact hins x hx1.2 (hdel hx1.1)
